import Mathlib

/-!
Verification of the mojibake codec (src/mojibake/src/encode.rs, decode.rs).

The codec packs bytes into 11-bit groups, each group rendered as one symbol of a
2048-entry main alphabet (`EMOJI_MAP` / `NUMBER_MAP`); a trailing remainder of
1..3 bits is rendered via a small tail alphabet (`TAIL_MAP` / `TAIL_NUMBER_MAP`,
`N > 8` entries), and a remainder of 4..10 bits directly via the main alphabet.

Symbols are opaque grapheme clusters; per the table invariants the two
index-to-symbol maps are bijections, disjoint in symbol space, so a symbol is
faithfully represented by which table it belongs to together with its index.
`Symb.main i` (meaningful for `i < 2048`) stands for the grapheme `EMOJI_MAP[i]`,
`Symb.tail i` (meaningful for `i < N`) for `TAIL_MAP[i]`, and `Symb.other` for any
grapheme found in neither table.  An out-of-range index behaves exactly like
`Symb.other` under both lookups.  The tail-table size `N` is build data, not in
the source; it is a parameter of the decoding functions (the repository's tests
assert `TAIL_MAP.len() > 8`, i.e. `8 < N`).

Rust machine integers are modelled as `Nat` with an explicit `% 2 ^ w` wherever
the source performs a shift whose result the machine would truncate
(the encoder accumulator is `u16`, the decoder accumulator `u32`).
Rust `Option`/`Result` return types are modelled by result inductives that also
expose reachable `.expect(..)` panics as an explicit outcome.
-/

inductive Symb where
  | main (i : Nat) : Symb
  | tail (i : Nat) : Symb
  | other : Symb
deriving DecidableEq, Repr

/-- Result of `decode` (Rust `Option<Vec<u8>>`, plus the panic outcome of the
`u8::try_from(..).expect("Decoding byte was higher than 255")` calls). -/
inductive DecodeResult where
  | ok (bytes : List Nat) : DecodeResult
  | invalidSymbol : DecodeResult
  | panicked : DecodeResult
deriving DecidableEq, Repr

/-- Result of `decode_stream` (Rust `io::Result<()>` together with the bytes the
sink received; the panic outcome aborts the process, so no sink is reported). -/
inductive StreamResult where
  | ok (sink : List Nat) : StreamResult
  | ioError (sink : List Nat) : StreamResult
  | panicked : StreamResult
deriving DecidableEq, Repr

/-! ## Encoder (src/mojibake/src/encode.rs) -/

/-- `bytes_to_emojis` (encode.rs lines 6-23): feed one byte into the `u16`
accumulator `(stage, remaining)`; returns the new accumulator and the emitted
main-table symbol, if any.  The emitted value is the index looked up in
`EMOJI_MAP`; the lookup panics iff the index is `≥ 2048` (see claim C8). -/
def bytes_to_emojis (stage remaining byte : Nat) : Nat × Nat × Option Symb :=
  let need := 11 - remaining
  if need ≤ 8 then
    let remaining' := 8 - need
    let index := ((stage <<< need) % 2 ^ 16) ||| (byte >>> remaining')
    (byte &&& ((1 <<< remaining') - 1), remaining', some (Symb.main index))
  else
    (((stage <<< 8) % 2 ^ 16) ||| byte, remaining + 8, none)

/-- `handle_remaining_bits` (encode.rs lines 26-42): flush the accumulator at
end of input.  `TAIL_MAP[stage]` exists iff `stage < N`, `EMOJI_MAP[stage]` iff
`stage < 2048`; the symbol records the index used for the lookup. -/
def handle_remaining_bits (stage remaining : Nat) : Option Symb :=
  if remaining = 0 then none
  else if remaining ≤ 3 then some (Symb.tail stage)
  else some (Symb.main stage)

/-- The `for byte in bytes` loop of `encode` (encode.rs lines 95-100): returns
the emitted symbols and the final accumulator. -/
def encodeLoop (stage remaining : Nat) : List Nat → List Symb × Nat × Nat
  | [] => ([], stage, remaining)
  | b :: bs =>
      match bytes_to_emojis stage remaining b with
      | (stage', remaining', out) =>
          match encodeLoop stage' remaining' bs with
          | (syms, stage'', remaining'') => (out.toList ++ syms, stage'', remaining'')

/-- `encode` (encode.rs lines 89-104). -/
def encode (bytes : List Nat) : List Symb :=
  match encodeLoop 0 0 bytes with
  | (syms, stage, remaining) => syms ++ (handle_remaining_bits stage remaining).toList

/-- The `while let Ok(n) = reader.read(&mut buffer)` loop of `encode_stream`
(encode.rs lines 148-158).  The incremental source is a list of read results:
`none` models `reader.read` returning `Err(io_error)`, `some chunk` models
`Ok(chunk.length)` with `chunk` the bytes read (`some []` is end of input).
Note the `while let Ok` pattern leaves the loop on a read error exactly as it
does at end of input. -/
def encode_streamLoop (stage remaining : Nat) : List (Option (List Nat)) → List Symb × Nat × Nat
  | [] => ([], stage, remaining)
  | none :: _ => ([], stage, remaining)
  | some chunk :: reads =>
      if chunk.isEmpty then ([], stage, remaining)
      else
        match encodeLoop stage remaining chunk with
        | (syms, stage', remaining') =>
            match encode_streamLoop stage' remaining' reads with
            | (syms', stage'', remaining'') => (syms ++ syms', stage'', remaining'')

/-- `encode_stream` (encode.rs lines 143-163).  The sink (writer) is modelled as
an infallible accumulator, since the claims about this function concern read
failures; the returned value mirrors the Rust `io::Result<()>` with the symbols
the sink received. -/
def encode_stream (reads : List (Option (List Nat))) : Except Unit (List Symb) :=
  match encode_streamLoop 0 0 reads with
  | (syms, stage, remaining) =>
      Except.ok (syms ++ (handle_remaining_bits stage remaining).toList)

/-! ## Decoder (src/mojibake/src/decode.rs) -/

/-- `NUMBER_MAP.get(c)`: the main table maps the grapheme `EMOJI_MAP[i]` back to
`i` for every `i < 2048` and contains nothing else. -/
def NUMBER_MAP_get : Symb → Option Nat
  | Symb.main i => if i < 2048 then some i else none
  | _ => none

/-- `TAIL_NUMBER_MAP.get(c)` for a tail table with `N` entries: maps
`TAIL_MAP[i]` back to `i` for every `i < N` and contains nothing else. -/
def TAIL_NUMBER_MAP_get (N : Nat) : Symb → Option Nat
  | Symb.tail i => if i < N then some i else none
  | _ => none

/-- The symbol-classification `match` shared verbatim by `decode` (decode.rs
lines 38-57) and `decode_stream` (decode.rs lines 173-200): returns the pair
`(n_new_bits, new_bits)` contributed by symbol `c`, or `none` for the two
failure cases (symbol in neither table; tail value not below `1 << need`). -/
def decodeMatch (N remaining residue : Nat) (c : Symb) (isLast : Bool) : Option (Nat × Nat) :=
  match NUMBER_MAP_get c with
  | some bits => if isLast then some (11 - residue, bits) else some (11, bits)
  | none =>
      match TAIL_NUMBER_MAP_get N c with
      | some index =>
          let need := 8 - remaining
          if index < (1 <<< need) then some (need, index) else none
      | none => none

/-- The `while remaining >= 8` byte-extraction loop shared by `decode`
(decode.rs lines 60-65) and `decode_stream` (decode.rs lines 203-208): emits
complete bytes from the top of `stage`; `none` models the
`u8::try_from(..).expect(..)` panic when an extracted value exceeds 255. -/
def flushLoop (ret : List Nat) (stage : Nat) : Nat → Option (List Nat × Nat × Nat)
  | remaining + 8 =>
      let byte := stage >>> remaining
      if byte < 256 then
        flushLoop (ret ++ [byte]) (stage &&& ((1 <<< remaining) - 1)) remaining
      else none
  | remaining => some (ret, stage, remaining)

/-- The `while let Some(c) = chars.next()` loop of `decode` (decode.rs lines
36-74), including the trailing partial-byte emission after the loop.  `rest`
is the unconsumed symbol sequence, so `rest.isEmpty` is `chars.peek().is_none()`. -/
def decodeLoop (N : Nat) (ret : List Nat) (remaining stage residue : Nat) :
    List Symb → DecodeResult
  | [] =>
      if remaining > 0 then
        let byte := stage >>> (8 - remaining)
        if byte < 256 then DecodeResult.ok (ret ++ [byte]) else DecodeResult.panicked
      else DecodeResult.ok ret
  | c :: rest =>
      let residue' := (residue + 11) % 8
      match decodeMatch N remaining residue' c rest.isEmpty with
      | none => DecodeResult.invalidSymbol
      | some (n, v) =>
          match flushLoop ret (((stage <<< n) % 2 ^ 32) ||| v) (remaining + n) with
          | none => DecodeResult.panicked
          | some (ret', stage', remaining') => decodeLoop N ret' remaining' stage' residue' rest

/-- `decode` (decode.rs lines 29-75), after the input string has been segmented
into grapheme clusters (`string.graphemes(false)`); per the table invariants
every symbol of either alphabet is a single self-delimiting grapheme cluster,
so the decoder's input is the symbol sequence itself. -/
def decode (N : Nat) (syms : List Symb) : DecodeResult :=
  decodeLoop N [] 0 0 0 syms

/-- The symbol loop of `decode_stream` (decode.rs lines 170-217).  Identical to
`decodeLoop` except that failures are `io::Error`s and bytes go to the sink as
they are produced (`out` is the sink content so far). -/
def decode_streamLoop (N : Nat) (out : List Nat) (remaining stage residue : Nat) :
    List Symb → StreamResult
  | [] =>
      if remaining > 0 then
        let byte := stage >>> (8 - remaining)
        if byte < 256 then StreamResult.ok (out ++ [byte]) else StreamResult.panicked
      else StreamResult.ok out
  | c :: rest =>
      let residue' := (residue + 11) % 8
      match decodeMatch N remaining residue' c rest.isEmpty with
      | none => StreamResult.ioError out
      | some (n, v) =>
          match flushLoop out (((stage <<< n) % 2 ^ 32) ||| v) (remaining + n) with
          | none => StreamResult.panicked
          | some (out', stage', remaining') => decode_streamLoop N out' remaining' stage' residue' rest

/-- `decode_stream` (decode.rs lines 164-218), with the incremental UTF-8 source
already segmented into symbols: the `GraphemeReader` (decode.rs lines 77-134)
yields, one at a time, exactly the grapheme clusters of the streamed text
(its one-cluster lookahead never splits a symbol, per the table invariant that
every symbol is a complete standalone cluster). -/
def decode_stream (N : Nat) (syms : List Symb) : StreamResult :=
  decode_streamLoop N [] 0 0 0 syms

/-! ## Decoder loop: mid-stream processing

For the coupling proofs the decoder loop is split around its lookahead: while
the encoder keeps emitting, every symbol processed so far is non-final. -/

/-- Proof helper: `decodeLoop` with every symbol treated as non-final, returning
the success state `(ret, remaining, stage, residue)` and collapsing both failure
outcomes to `none`. -/
def decodeMidLoop (N : Nat) (ret : List Nat) (remaining stage residue : Nat) :
    List Symb → Option (List Nat × Nat × Nat × Nat)
  | [] => some (ret, remaining, stage, residue)
  | c :: rest =>
      let residue' := (residue + 11) % 8
      match decodeMatch N remaining residue' c false with
      | none => none
      | some (n, v) =>
          match flushLoop ret (((stage <<< n) % 2 ^ 32) ||| v) (remaining + n) with
          | none => none
          | some (ret', stage', remaining') => decodeMidLoop N ret' remaining' stage' residue' rest

/-- Lookup success during encoding: the index recorded in an emitted symbol is
present in its table under the §3 invariants (main indices 0..2047, tail
indices 0..7 all populated). -/
def symLookupOk : Symb → Prop
  | Symb.main i => i < 2048
  | Symb.tail i => i < 8
  | Symb.other => False


/-! ## Byte sequences as numbers

A byte list is coupled to the bit stream it denotes through its value as a
base-256 numeral (most significant byte first); concatenation of bit strings
becomes `shift + add` arithmetic. -/

def byteListVal (l : List Nat) : Nat := l.foldl (fun a b => a * 256 + b) 0

theorem foldl_byteVal_shift (a : Nat) (l : List Nat) :
    l.foldl (fun x b => x * 256 + b) a = a * 256 ^ l.length + byteListVal l := by
  induction l generalizing a with
  | nil => simp [byteListVal]
  | cons b t ih =>
      show t.foldl (fun x b => x * 256 + b) (a * 256 + b) = _
      rw [ih (a * 256 + b)]
      have hb : byteListVal (b :: t) = b * 256 ^ t.length + byteListVal t := by
        show t.foldl (fun x b => x * 256 + b) (0 * 256 + b) = _
        rw [ih (0 * 256 + b)]; ring_nf
      rw [hb]; simp [List.length_cons]; ring

theorem byteListVal_cons (b : Nat) (l : List Nat) :
    byteListVal (b :: l) = b * 256 ^ l.length + byteListVal l := by
  show l.foldl (fun x b => x * 256 + b) (0 * 256 + b) = _
  rw [foldl_byteVal_shift]; ring_nf

theorem byteListVal_append (l1 l2 : List Nat) :
    byteListVal (l1 ++ l2) = byteListVal l1 * 256 ^ l2.length + byteListVal l2 := by
  unfold byteListVal
  rw [List.foldl_append, foldl_byteVal_shift]
  rfl

theorem byteListVal_lt (l : List Nat) (h : ∀ x ∈ l, x < 256) :
    byteListVal l < 256 ^ l.length := by
  induction l with
  | nil => simp [byteListVal]
  | cons b t ih =>
      rw [byteListVal_cons]
      have hb : b < 256 := h b (by simp)
      have ht : byteListVal t < 256 ^ t.length := ih (fun x hx => h x (by simp [hx]))
      have : b * 256 ^ t.length + byteListVal t < (b + 1) * 256 ^ t.length := by
        rw [Nat.add_mul, Nat.one_mul]; omega
      calc b * 256 ^ t.length + byteListVal t < (b + 1) * 256 ^ t.length := this
        _ ≤ 256 * 256 ^ t.length := Nat.mul_le_mul_right _ (by omega)
        _ = 256 ^ (b :: t).length := by rw [List.length_cons, pow_succ]; ring

theorem byteListVal_inj : ∀ (l1 l2 : List Nat), (∀ x ∈ l1, x < 256) → (∀ x ∈ l2, x < 256) →
    l1.length = l2.length → byteListVal l1 = byteListVal l2 → l1 = l2 := by
  intro l1
  induction l1 with
  | nil => intro l2 _ _ hlen _; cases l2 <;> simp_all
  | cons b t ih =>
      intro l2 h1 h2 hlen hv
      cases l2 with
      | nil => simp at hlen
      | cons c u =>
          have hlen' : t.length = u.length := by simpa using hlen
          rw [byteListVal_cons, byteListVal_cons, hlen'] at hv
          have ht : byteListVal t < 256 ^ u.length := by
            rw [← hlen']; exact byteListVal_lt t (fun x hx => h1 x (by simp [hx]))
          have hu : byteListVal u < 256 ^ u.length := byteListVal_lt u (fun x hx => h2 x (by simp [hx]))
          have hpos : 0 < 256 ^ u.length := Nat.pos_pow_of_pos _ (by omega)
          have hbc : b = c := by
            have hb' : b = (b * 256 ^ u.length + byteListVal t) / 256 ^ u.length := by
              rw [Nat.mul_comm, Nat.mul_add_div hpos, Nat.div_eq_of_lt ht]; omega
            have hc' : c = (c * 256 ^ u.length + byteListVal u) / 256 ^ u.length := by
              rw [Nat.mul_comm, Nat.mul_add_div hpos, Nat.div_eq_of_lt hu]; omega
            rw [hb', hv, ← hc']
          subst hbc
          have htu : byteListVal t = byteListVal u := by omega
          rw [ih u (fun x hx => h1 x (by simp [hx])) (fun x hx => h2 x (by simp [hx])) hlen' htu]

/-! ## Arithmetic readings of the bit operations -/

theorem mul_pow_or_eq_add {n : Nat} (x : Nat) : ∀ v : Nat, v < 2 ^ n →
    x * 2 ^ n ||| v = x * 2 ^ n + v := by
  induction n generalizing x with
  | zero => intro v hv; interval_cases v; simp
  | succ n ih =>
      intro v hv
      have hd : v / 2 < 2 ^ n := by omega
      have hbit : ∀ (b : Bool) (m : Nat), Nat.bit b m = 2 * m + b.toNat := by
        intro b m; cases b <;> simp [Nat.bit]
      have htn : (decide (v % 2 = 1)).toNat = v % 2 := by
        rcases Nat.mod_two_eq_zero_or_one v with h | h <;> simp [h]
      have e1 : x * 2 ^ (n + 1) = Nat.bit false (x * 2 ^ n) := by rw [hbit]; simp; ring
      have e2 : v = Nat.bit (decide (v % 2 = 1)) (v / 2) := by rw [hbit, htn]; omega
      calc x * 2 ^ (n + 1) ||| v
          = Nat.bit false (x * 2 ^ n) ||| Nat.bit (decide (v % 2 = 1)) (v / 2) := by
            rw [← e1, ← e2]
        _ = Nat.bit (false || decide (v % 2 = 1)) (x * 2 ^ n ||| v / 2) :=
            Nat.lor_bit false (x * 2 ^ n) (decide (v % 2 = 1)) (v / 2)
        _ = 2 * (x * 2 ^ n + v / 2) + v % 2 := by
            rw [hbit, Bool.false_or, htn, ih x (v / 2) hd]
        _ = x * 2 ^ (n + 1) + v := by ring_nf; omega

theorem shiftLeft_or_eq_add {n : Nat} (x v : Nat) (hv : v < 2 ^ n) :
    x <<< n ||| v = x * 2 ^ n + v := by
  rw [Nat.shiftLeft_eq, mul_pow_or_eq_add x v hv]

theorem and_shiftLeft_sub_one (x n : Nat) : x &&& ((1 <<< n) - 1) = x % 2 ^ n := by
  rw [Nat.one_shiftLeft, Nat.and_pow_two_sub_one_eq_mod]

/-! ## The byte-extraction loop -/

theorem flushLoop_lt (ret : List Nat) (stage r : Nat) (h : r < 8) :
    flushLoop ret stage r = some (ret, stage, r) := by
  interval_cases r <;> rfl

theorem flushLoop_step (ret : List Nat) (stage r : Nat) :
    flushLoop ret stage (r + 8) =
      if stage >>> r < 256 then
        flushLoop (ret ++ [stage >>> r]) (stage &&& ((1 <<< r) - 1)) r
      else none := rfl

/-- On an in-range stage the extraction loop never panics: it moves the top
bytes of `stage` to the output and keeps the bottom `r % 8` bits. -/
theorem flushLoop_spec : ∀ (r : Nat) (ret : List Nat) (stage : Nat), stage < 2 ^ r →
    ∃ out, flushLoop ret stage r = some (ret ++ out, stage % 2 ^ (r % 8), r % 8)
      ∧ (∀ x ∈ out, x < 256) ∧ 8 * out.length + r % 8 = r
      ∧ byteListVal out * 2 ^ (r % 8) + stage % 2 ^ (r % 8) = stage := by
  intro r
  induction r using Nat.strong_induction_on with
  | _ r ih =>
    intro ret stage hst
    rcases Nat.lt_or_ge r 8 with hlt | hge
    · refine ⟨[], ?_, by simp, by simp [Nat.mod_eq_of_lt hlt], ?_⟩
      · rw [flushLoop_lt ret stage r hlt, Nat.mod_eq_of_lt hlt,
          Nat.mod_eq_of_lt hst]
        simp
      · rw [Nat.mod_eq_of_lt hlt, Nat.mod_eq_of_lt hst]
        simp [byteListVal]
    · obtain ⟨r0, rfl⟩ : ∃ r0, r = r0 + 8 := ⟨r - 8, by omega⟩
      have hpos : 0 < 2 ^ r0 := Nat.pos_pow_of_pos _ (by omega)
      have hbyte : stage >>> r0 < 256 := by
        rw [Nat.shiftRight_eq_div_pow]
        have : stage < 2 ^ r0 * 2 ^ 8 := by rw [← pow_add]; exact hst
        exact Nat.div_lt_of_lt_mul this
      have hmask : stage &&& ((1 <<< r0) - 1) = stage % 2 ^ r0 := and_shiftLeft_sub_one stage r0
      obtain ⟨out0, heq0, hb0, hlen0, hval0⟩ :=
        ih r0 (by omega) (ret ++ [stage >>> r0]) (stage % 2 ^ r0) (Nat.mod_lt _ hpos)
      refine ⟨stage >>> r0 :: out0, ?_, ?_, ?_, ?_⟩
      · rw [flushLoop_step, if_pos hbyte, hmask, heq0]
        have hmm : stage % 2 ^ r0 % 2 ^ ((r0 + 8) % 8) = stage % 2 ^ ((r0 + 8) % 8) := by
          rw [Nat.add_mod_right]
          exact Nat.mod_mod_of_dvd stage (pow_dvd_pow 2 (Nat.mod_le r0 8))
        rw [Nat.add_mod_right] at hmm ⊢
        rw [hmm]
        simp
      · intro x hx
        rcases List.mem_cons.mp hx with h | h
        · subst h; exact hbyte
        · exact hb0 x h
      · simp only [List.length_cons, Nat.add_mod_right]
        omega
      · rw [Nat.add_mod_right] at *
        rw [byteListVal_cons]
        have hp : (256 : Nat) ^ out0.length * 2 ^ (r0 % 8) = 2 ^ r0 := by
          have : (256 : Nat) ^ out0.length = 2 ^ (8 * out0.length) := by
            rw [pow_mul]; norm_num
          rw [this, ← pow_add, hlen0]
        have hmm : stage % 2 ^ r0 % 2 ^ (r0 % 8) = stage % 2 ^ (r0 % 8) :=
          Nat.mod_mod_of_dvd stage (pow_dvd_pow 2 (Nat.mod_le r0 8))
        rw [hmm] at hval0
        calc (stage >>> r0 * 256 ^ out0.length + byteListVal out0) * 2 ^ (r0 % 8)
              + stage % 2 ^ (r0 % 8)
            = stage >>> r0 * (256 ^ out0.length * 2 ^ (r0 % 8))
              + (byteListVal out0 * 2 ^ (r0 % 8) + stage % 2 ^ (r0 % 8)) := by ring
          _ = stage >>> r0 * 2 ^ r0 + stage % 2 ^ r0 := by rw [hp, hval0]
          _ = 2 ^ r0 * (stage / 2 ^ r0) + stage % 2 ^ r0 := by
              rw [Nat.shiftRight_eq_div_pow]; ring
          _ = stage := Nat.div_add_mod stage (2 ^ r0)

/-! ## Encoder step characterization -/

theorem bytes_to_emojis_acc (stage remaining byte : Nat) (hr : remaining ≤ 2)
    (hs : stage < 2 ^ remaining) (hb : byte < 256) :
    bytes_to_emojis stage remaining byte = (stage * 256 + byte, remaining + 8, none) ∧
      stage * 256 + byte < 2 ^ (remaining + 8) := by
  have hs4 : stage < 4 := lt_of_lt_of_le hs (by interval_cases remaining <;> norm_num)
  have h1 : stage <<< 8 = stage * 256 := by rw [Nat.shiftLeft_eq]
  have h2 : stage * 256 < 2 ^ 16 := by omega
  have h3 : (stage * 256) ||| byte = stage * 256 + byte := by
    have := mul_pow_or_eq_add (n := 8) stage byte (by omega)
    simpa using this
  constructor
  · unfold bytes_to_emojis
    rw [if_neg (by omega)]
    rw [h1, Nat.mod_eq_of_lt h2, h3]
  · have : (2 : Nat) ^ (remaining + 8) = 2 ^ remaining * 256 := by rw [pow_add]; norm_num
    rw [this]
    calc stage * 256 + byte < stage * 256 + 256 := by omega
      _ = (stage + 1) * 256 := by ring
      _ ≤ 2 ^ remaining * 256 := Nat.mul_le_mul_right _ (by omega)

theorem bytes_to_emojis_emit (stage remaining byte : Nat) (h3 : 3 ≤ remaining)
    (hr : remaining ≤ 10) (hs : stage < 2 ^ remaining) (hb : byte < 256) :
    bytes_to_emojis stage remaining byte =
      (byte % 2 ^ (remaining - 3), remaining - 3,
        some (Symb.main (stage * 2 ^ (11 - remaining) + byte / 2 ^ (remaining - 3)))) ∧
      stage * 2 ^ (11 - remaining) + byte / 2 ^ (remaining - 3) < 2048 := by
  have hrem' : 8 - (11 - remaining) = remaining - 3 := by omega
  have hsplit : (2 : Nat) ^ remaining * 2 ^ (11 - remaining) = 2 ^ 11 := by
    rw [← pow_add]; congr 1; omega
  have hsh : stage <<< (11 - remaining) = stage * 2 ^ (11 - remaining) := Nat.shiftLeft_eq _ _
  have hshlt : stage * 2 ^ (11 - remaining) < 2 ^ 11 := by
    calc stage * 2 ^ (11 - remaining) < 2 ^ remaining * 2 ^ (11 - remaining) :=
          (Nat.mul_lt_mul_right (Nat.pos_pow_of_pos _ (by omega))).mpr hs
      _ = 2 ^ 11 := hsplit
  have hdiv : byte >>> (remaining - 3) = byte / 2 ^ (remaining - 3) :=
    Nat.shiftRight_eq_div_pow _ _
  have hdivlt : byte / 2 ^ (remaining - 3) < 2 ^ (11 - remaining) := by
    apply Nat.div_lt_of_lt_mul
    calc byte < 2 ^ 8 := by omega
      _ = 2 ^ (remaining - 3) * 2 ^ (11 - remaining) := by rw [← pow_add]; congr 1; omega
  have hor : stage * 2 ^ (11 - remaining) ||| byte / 2 ^ (remaining - 3)
      = stage * 2 ^ (11 - remaining) + byte / 2 ^ (remaining - 3) :=
    mul_pow_or_eq_add stage _ hdivlt
  have hvlt : stage * 2 ^ (11 - remaining) + byte / 2 ^ (remaining - 3) < 2048 := by
    have h1 : stage * 2 ^ (11 - remaining) ≤ 2 ^ 11 - 2 ^ (11 - remaining) := by
      have : (stage + 1) * 2 ^ (11 - remaining) ≤ 2 ^ remaining * 2 ^ (11 - remaining) :=
        Nat.mul_le_mul_right _ (by omega)
      rw [hsplit] at this
      have h2 : (stage + 1) * 2 ^ (11 - remaining)
          = stage * 2 ^ (11 - remaining) + 2 ^ (11 - remaining) := by ring
      omega
    have he : (2 : Nat) ^ (11 - remaining) ≤ 2048 := by
      calc (2 : Nat) ^ (11 - remaining) ≤ 2 ^ 11 := Nat.pow_le_pow_right (by omega) (by omega)
        _ = 2048 := by norm_num
    have : (2 : Nat) ^ 11 = 2048 := by norm_num
    omega
  refine ⟨?_, hvlt⟩
  unfold bytes_to_emojis
  dsimp only
  rw [if_pos (by omega : 11 - remaining ≤ 8), hrem', hsh,
    Nat.mod_eq_of_lt (lt_trans hshlt (by norm_num)), hdiv, hor, and_shiftLeft_sub_one]

theorem decodeLoop_mid_run (N : Nat) : ∀ (S rest : List Symb), rest ≠ [] →
    ∀ (ret : List Nat) (r s ρ : Nat) (ret' : List Nat) (r' s' ρ' : Nat),
    decodeMidLoop N ret r s ρ S = some (ret', r', s', ρ') →
    decodeLoop N ret r s ρ (S ++ rest) = decodeLoop N ret' r' s' ρ' rest := by
  intro S
  induction S with
  | nil =>
      intro rest _ ret r s ρ ret' r' s' ρ' hmid
      simp [decodeMidLoop] at hmid
      obtain ⟨h1, h2, h3, h4⟩ := hmid
      subst h1; subst h2; subst h3; subst h4
      rfl
  | cons c S' ih =>
      intro rest hne ret r s ρ ret' r' s' ρ' hmid
      have hful : (S' ++ rest).isEmpty = false := by
        cases h : S' ++ rest with
        | nil => exact absurd (List.append_eq_nil.mp h).2 hne
        | cons _ _ => rfl
      rw [decodeMidLoop] at hmid
      split at hmid
      · simp at hmid
      · rename_i n v hm
        split at hmid
        · simp at hmid
        · rename_i ret0 s0 r0 hf
          rw [List.cons_append, decodeLoop]
          simp only [hful, hm, hf]
          exact ih rest hne ret0 r0 s0 ((ρ + 11) % 8) ret' r' s' ρ' hmid

theorem decodeMatch_last_of_residue_zero (N r : Nat) (c : Symb) :
    decodeMatch N r 0 c true = decodeMatch N r 0 c false := by
  cases c <;> simp [decodeMatch, NUMBER_MAP_get, TAIL_NUMBER_MAP_get]

theorem decodeLoop_of_mid (N : Nat) : ∀ (S : List Symb) (ret : List Nat) (r s ρ : Nat)
    (ret' : List Nat) (r' s' ρ' : Nat),
    decodeMidLoop N ret r s ρ S = some (ret', r', s', ρ') → ρ' = 0 → r' = 0 →
    decodeLoop N ret r s ρ S = DecodeResult.ok ret' := by
  intro S
  induction S with
  | nil =>
      intro ret r s ρ ret' r' s' ρ' hmid hρ hr
      simp [decodeMidLoop] at hmid
      obtain ⟨h1, h2, h3, h4⟩ := hmid
      subst h1; subst h2; subst h3; subst h4
      subst hr
      rfl
  | cons c S' ih =>
      intro ret r s ρ ret' r' s' ρ' hmid hρ hr
      rw [decodeMidLoop] at hmid
      split at hmid
      · simp at hmid
      · rename_i n v hm
        split at hmid
        · simp at hmid
        · rename_i ret0 s0 r0 hf
          cases S' with
          | nil =>
              simp [decodeMidLoop] at hmid
              obtain ⟨h1, h2, h3, h4⟩ := hmid
              subst h1; subst h2; subst h3; subst h4
              subst hr
              rw [hρ] at hm
              norm_num at hf
              simp [decodeLoop, List.isEmpty_nil, decodeMatch_last_of_residue_zero,
                hρ, hm, hf]
          | cons c2 S'' =>
              rw [decodeLoop]
              simp only [List.isEmpty_cons, hm, hf]
              exact ih ret0 r0 s0 ((ρ + 11) % 8) ret' r' s' ρ' hmid hρ hr

theorem decodeMidLoop_cons_main (N : Nat) (ret : List Nat) (dr ds ρ v : Nat) (rest : List Symb)
    (hdr : dr ≤ 7) (hds : ds < 2 ^ dr) (hv : v < 2048) :
    ∃ out, decodeMidLoop N ret dr ds ρ (Symb.main v :: rest)
        = decodeMidLoop N (ret ++ out) ((dr + 3) % 8)
            ((ds * 2 ^ 11 + v) % 2 ^ ((dr + 3) % 8)) ((ρ + 11) % 8) rest
      ∧ (∀ x ∈ out, x < 256) ∧ 8 * out.length + (dr + 3) % 8 = dr + 11
      ∧ byteListVal out * 2 ^ ((dr + 3) % 8) + (ds * 2 ^ 11 + v) % 2 ^ ((dr + 3) % 8)
          = ds * 2 ^ 11 + v := by
  have hds128 : ds < 128 := by
    have : (2 : Nat) ^ dr ≤ 128 := by
      calc (2 : Nat) ^ dr ≤ 2 ^ 7 := Nat.pow_le_pow_right (by omega) hdr
        _ = 128 := by norm_num
    omega
  have hm : decodeMatch N dr ((ρ + 11) % 8) (Symb.main v) false = some (11, v) := by
    simp [decodeMatch, NUMBER_MAP_get, hv]
  have hsh : (ds <<< 11) % 2 ^ 32 = ds * 2 ^ 11 := by
    rw [Nat.shiftLeft_eq]
    apply Nat.mod_eq_of_lt
    have h1 : (2 : Nat) ^ 11 = 2048 := by norm_num
    have h2 : (2 : Nat) ^ 32 = 4294967296 := by norm_num
    rw [h1, h2]; omega
  have hor : ds * 2 ^ 11 ||| v = ds * 2 ^ 11 + v :=
    mul_pow_or_eq_add ds v (by norm_num; omega)
  have hlt : ds * 2 ^ 11 + v < 2 ^ (dr + 11) := by
    have h1 : (ds + 1) * 2 ^ 11 ≤ 2 ^ dr * 2 ^ 11 := Nat.mul_le_mul_right _ (by omega)
    have h2 : (2 : Nat) ^ dr * 2 ^ 11 = 2 ^ (dr + 11) := (pow_add 2 dr 11).symm
    have h3 : (ds + 1) * 2 ^ 11 = ds * 2 ^ 11 + 2 ^ 11 := by ring
    have h4 : (2 : Nat) ^ 11 = 2048 := by norm_num
    omega
  obtain ⟨out, heq, hb, hlen, hval⟩ := flushLoop_spec (dr + 11) ret (ds * 2 ^ 11 + v) hlt
  have hmod : (dr + 11) % 8 = (dr + 3) % 8 := by omega
  rw [hmod] at heq hlen hval
  refine ⟨out, ?_, hb, hlen, hval⟩
  rw [decodeMidLoop]
  simp only [hm, hsh, hor, heq]

/-- Coupled invariant of the encoder loop and the (mid-stream) decoder loop:
running the decoder over the symbols the encoder has emitted so far recovers
exactly the input bytes, except for the bits still pending on either side;
the decoder residue counter always equals its pending-bit count. -/
theorem encDecCoupling (N : Nat) : ∀ (bytes : List Nat) (es er : Nat)
    (ret : List Nat) (ds dr : Nat),
    (∀ x ∈ bytes, x < 256) → er ≤ 10 → es < 2 ^ er → dr ≤ 7 → ds < 2 ^ dr →
    (dr + er) % 8 = 0 → (∀ x ∈ ret, x < 256) →
    ∀ syms es' er', encodeLoop es er bytes = (syms, es', er') →
    ∃ ret' ds' dr',
      decodeMidLoop N ret dr ds dr syms = some (ret', dr', ds', dr')
      ∧ er' ≤ 10 ∧ es' < 2 ^ er' ∧ dr' ≤ 7 ∧ ds' < 2 ^ dr'
      ∧ (dr' + er') % 8 = 0 ∧ (∀ x ∈ ret', x < 256)
      ∧ (∀ c ∈ syms, ∃ w, c = Symb.main w ∧ w < 2048)
      ∧ byteListVal ret' * 2 ^ (dr' + er') + ds' * 2 ^ er' + es'
          = (byteListVal ret * 2 ^ (dr + er) + ds * 2 ^ er + es) * 256 ^ bytes.length
            + byteListVal bytes
      ∧ 8 * ret'.length + dr' + er' = 8 * ret.length + dr + er + 8 * bytes.length := by
  intro bytes
  induction bytes with
  | nil =>
      intro es er ret ds dr hbytes her hes hdr hds hmod8 hret syms es' er' henc
      rw [encodeLoop] at henc
      simp only [Prod.mk.injEq] at henc
      obtain ⟨rfl, rfl, rfl⟩ := henc
      refine ⟨ret, ds, dr, rfl, her, hes, hdr, hds, hmod8, hret, by simp, ?_, by simp⟩
      simp [byteListVal]
  | cons B bs ih =>
      intro es er ret ds dr hbytes her hes hdr hds hmod8 hret syms es' er' henc
      have hB : B < 256 := hbytes B (by simp)
      have hbs : ∀ x ∈ bs, x < 256 := fun x hx => hbytes x (by simp [hx])
      rcases Nat.lt_or_ge er 3 with hlt3 | hge3
      · -- accumulate branch: no symbol is emitted for this byte
        obtain ⟨hstep, hbound⟩ := bytes_to_emojis_acc es er B (by omega) hes hB
        rcases h0 : encodeLoop (es * 256 + B) (er + 8) bs with ⟨syms0, es0, er0⟩
        rw [encodeLoop] at henc
        rw [hstep] at henc
        simp only [h0, Option.toList, Prod.mk.injEq, List.nil_append] at henc
        obtain ⟨rfl, rfl, rfl⟩ := henc
        obtain ⟨ret', ds', dr', hmid, her', hes', hdr', hds', hmod8', hret', hsv, hval, hlen⟩ :=
          ih (es * 256 + B) (er + 8) ret ds dr hbs (by omega) hbound hdr hds
            (by omega) hret _ _ _ h0
        refine ⟨ret', ds', dr', hmid, her', hes', hdr', hds', hmod8', hret', hsv, ?_, ?_⟩
        · have hstar : byteListVal ret * 2 ^ (dr + (er + 8)) + ds * 2 ^ (er + 8) + (es * 256 + B)
              = (byteListVal ret * 2 ^ (dr + er) + ds * 2 ^ er + es) * 256 + B := by
            have e1 : (2 : Nat) ^ (dr + (er + 8)) = 2 ^ (dr + er) * 256 := by
              rw [← Nat.add_assoc, pow_add]; norm_num
            have e2 : (2 : Nat) ^ (er + 8) = 2 ^ er * 256 := by rw [pow_add]; norm_num
            rw [e1, e2]; ring
          rw [hval, hstar, byteListVal_cons, List.length_cons, pow_succ]; ring
        · simp only [List.length_cons]
          omega
      · -- emission branch: an 11-bit group completes
        obtain ⟨hstep, hvlt⟩ := bytes_to_emojis_emit es er B hge3 her hes hB
        rcases h0 : encodeLoop (B % 2 ^ (er - 3)) (er - 3) bs with ⟨syms0, es0, er0⟩
        rw [encodeLoop] at henc
        rw [hstep] at henc
        simp only [h0, Option.toList, Prod.mk.injEq, List.singleton_append] at henc
        obtain ⟨rfl, rfl, rfl⟩ := henc
        obtain ⟨out, hstepd, hbout, hlenout, hvalout⟩ :=
          decodeMidLoop_cons_main N ret dr ds dr (es * 2 ^ (11 - er) + B / 2 ^ (er - 3))
            syms0 hdr hds hvlt
        have hres : (dr + 11) % 8 = (dr + 3) % 8 := by omega
        rw [hres] at hstepd
        have hpos3 : 0 < 2 ^ (er - 3) := Nat.pos_pow_of_pos _ (by omega)
        have hpos1 : 0 < 2 ^ ((dr + 3) % 8) := Nat.pos_pow_of_pos _ (by omega)
        have hretout : ∀ x ∈ ret ++ out, x < 256 := by
          intro x hx
          rcases List.mem_append.mp hx with h | h
          · exact hret x h
          · exact hbout x h
        obtain ⟨ret', ds', dr', hmid, her', hes', hdr', hds', hmod8', hret', hsv, hval, hlen⟩ :=
          ih (B % 2 ^ (er - 3)) (er - 3) (ret ++ out)
            ((ds * 2 ^ 11 + (es * 2 ^ (11 - er) + B / 2 ^ (er - 3))) % 2 ^ ((dr + 3) % 8))
            ((dr + 3) % 8) hbs (by omega) (Nat.mod_lt _ hpos3) (by omega)
            (Nat.mod_lt _ hpos1) (by omega) hretout _ _ _ h0
        refine ⟨ret', ds', dr', ?_, her', hes', hdr', hds', hmod8', hret', ?_, ?_, ?_⟩
        · rw [hstepd]; exact hmid
        · intro c hc
          rcases List.mem_cons.mp hc with h | h
          · exact ⟨es * 2 ^ (11 - er) + B / 2 ^ (er - 3), h, hvlt⟩
          · exact hsv c h
        · -- the value equation
          have hp2 : (256 : Nat) ^ out.length * 2 ^ ((dr + 3) % 8) = 2 ^ (dr + 11) := by
            have h256 : (256 : Nat) ^ out.length = 2 ^ (8 * out.length) := by
              rw [pow_mul]; norm_num
            rw [h256, ← pow_add, hlenout]
          have hp3 : (2 : Nat) ^ (dr + 11) * 2 ^ (er - 3) = 2 ^ (dr + er) * 2 ^ 8 := by
            rw [← pow_add, ← pow_add]; congr 1; omega
          have hp4 : (2 : Nat) ^ 11 * 2 ^ (er - 3) = 2 ^ er * 2 ^ 8 := by
            rw [← pow_add, ← pow_add]; congr 1; omega
          have hp5 : (2 : Nat) ^ (11 - er) * 2 ^ (er - 3) = 2 ^ 8 := by
            rw [← pow_add]; congr 1; omega
          have hp6 : B / 2 ^ (er - 3) * 2 ^ (er - 3) + B % 2 ^ (er - 3) = B := by
            rw [Nat.mul_comm]; exact Nat.div_add_mod B (2 ^ (er - 3))
          have hstar : byteListVal (ret ++ out) * 2 ^ ((dr + 3) % 8 + (er - 3))
                + (ds * 2 ^ 11 + (es * 2 ^ (11 - er) + B / 2 ^ (er - 3))) % 2 ^ ((dr + 3) % 8)
                  * 2 ^ (er - 3)
                + B % 2 ^ (er - 3)
              = (byteListVal ret * 2 ^ (dr + er) + ds * 2 ^ er + es) * 256 + B := by
            rw [byteListVal_append, pow_add]
            calc (byteListVal ret * 256 ^ out.length + byteListVal out)
                    * (2 ^ ((dr + 3) % 8) * 2 ^ (er - 3))
                  + (ds * 2 ^ 11 + (es * 2 ^ (11 - er) + B / 2 ^ (er - 3))) % 2 ^ ((dr + 3) % 8)
                    * 2 ^ (er - 3)
                  + B % 2 ^ (er - 3)
                = byteListVal ret * (256 ^ out.length * 2 ^ ((dr + 3) % 8)) * 2 ^ (er - 3)
                  + ((byteListVal out * 2 ^ ((dr + 3) % 8)
                      + (ds * 2 ^ 11 + (es * 2 ^ (11 - er) + B / 2 ^ (er - 3)))
                          % 2 ^ ((dr + 3) % 8)) * 2 ^ (er - 3)
                    + B % 2 ^ (er - 3)) := by ring
              _ = byteListVal ret * 2 ^ (dr + 11) * 2 ^ (er - 3)
                  + ((ds * 2 ^ 11 + (es * 2 ^ (11 - er) + B / 2 ^ (er - 3))) * 2 ^ (er - 3)
                    + B % 2 ^ (er - 3)) := by rw [hp2, hvalout]
              _ = byteListVal ret * (2 ^ (dr + 11) * 2 ^ (er - 3))
                  + ds * (2 ^ 11 * 2 ^ (er - 3))
                  + es * (2 ^ (11 - er) * 2 ^ (er - 3))
                  + (B / 2 ^ (er - 3) * 2 ^ (er - 3) + B % 2 ^ (er - 3)) := by ring
              _ = byteListVal ret * (2 ^ (dr + er) * 2 ^ 8) + ds * (2 ^ er * 2 ^ 8)
                  + es * 2 ^ 8 + B := by rw [hp3, hp4, hp5, hp6]
              _ = (byteListVal ret * 2 ^ (dr + er) + ds * 2 ^ er + es) * 256 + B := by
                  norm_num; ring
          rw [hval, hstar, byteListVal_cons, List.length_cons, pow_succ]; ring
        · -- the length equation
          simp only [List.length_append] at hlen
          simp only [List.length_cons]
          omega

/-- Evaluating the decoder on a final tail symbol from a reachable state: it
completes the pending byte exactly. -/
theorem decodeLoop_last_tail (N : Nat) (ret : List Nat) (dr ds es er ρ : Nat)
    (hN : 8 ≤ N) (hdr : dr ≤ 7) (hds : ds < 2 ^ dr) (her1 : 1 ≤ er) (her3 : er ≤ 3)
    (hsum : dr + er = 8) (hes : es < 2 ^ er) :
    decodeLoop N ret dr ds ρ [Symb.tail es] = DecodeResult.ok (ret ++ [ds * 2 ^ er + es]) := by
  have hpow : (2 : Nat) ^ er ≤ 8 := by
    calc (2 : Nat) ^ er ≤ 2 ^ 3 := Nat.pow_le_pow_right (by omega) her3
      _ = 8 := by norm_num
  have hesN : es < N := by omega
  have h8dr : 8 - dr = er := by omega
  have hm : decodeMatch N dr ((ρ + 11) % 8) (Symb.tail es) true = some (er, es) := by
    simp only [decodeMatch, NUMBER_MAP_get, TAIL_NUMBER_MAP_get, if_pos hesN, h8dr,
      Nat.one_shiftLeft, if_pos hes]
  have hds128 : ds < 128 := by
    have : (2 : Nat) ^ dr ≤ 128 := by
      calc (2 : Nat) ^ dr ≤ 2 ^ 7 := Nat.pow_le_pow_right (by omega) hdr
        _ = 128 := by norm_num
    omega
  have hstage : ds * 2 ^ er + es < 256 := by
    have h1 : (ds + 1) * 2 ^ er ≤ 2 ^ dr * 2 ^ er := Nat.mul_le_mul_right _ (by omega)
    have h2 : (2 : Nat) ^ dr * 2 ^ er = 256 := by rw [← pow_add, hsum]; norm_num
    have h3 : (ds + 1) * 2 ^ er = ds * 2 ^ er + 2 ^ er := by ring
    omega
  have hsh : (ds <<< er) % 2 ^ 32 = ds * 2 ^ er := by
    rw [Nat.shiftLeft_eq]
    apply Nat.mod_eq_of_lt
    have : (2 : Nat) ^ 32 = 4294967296 := by norm_num
    omega
  have hor : ds * 2 ^ er ||| es = ds * 2 ^ er + es := mul_pow_or_eq_add ds es hes
  have hfl : flushLoop ret (ds * 2 ^ er + es) (dr + er) = some (ret ++ [ds * 2 ^ er + es], 0, 0) := by
    rw [hsum]
    rw [show (8 : Nat) = 0 + 8 from rfl, flushLoop_step]
    rw [Nat.shiftRight_zero, if_pos hstage, and_shiftLeft_sub_one, pow_zero, Nat.mod_one]
    exact flushLoop_lt _ _ _ (by omega)
  rw [decodeLoop]
  simp only [List.isEmpty_nil, hm, hsh, hor, hfl]
  rw [decodeLoop]
  simp

/-- Evaluating the decoder on a final main symbol from a reachable state with
`(dr + er) % 8 = 0`: the residue counter recovers the symbol's width `er`, and
the flush empties the accumulator. -/
theorem decodeLoop_last_main (N : Nat) (ret : List Nat) (dr ds es er : Nat)
    (hdr : dr ≤ 7) (hds : ds < 2 ^ dr) (her4 : 4 ≤ er) (her10 : er ≤ 10)
    (hsum : (dr + er) % 8 = 0) (hes : es < 2 ^ er) :
    ∃ out, decodeLoop N ret dr ds dr [Symb.main es] = DecodeResult.ok (ret ++ out)
      ∧ (∀ x ∈ out, x < 256) ∧ 8 * out.length = dr + er
      ∧ byteListVal out = ds * 2 ^ er + es := by
  have hpow : (2 : Nat) ^ er ≤ 1024 := by
    calc (2 : Nat) ^ er ≤ 2 ^ 10 := Nat.pow_le_pow_right (by omega) her10
      _ = 1024 := by norm_num
  have hes2048 : es < 2048 := by omega
  have hn : 11 - (dr + 11) % 8 = er := by omega
  have hm : decodeMatch N dr ((dr + 11) % 8) (Symb.main es) true = some (er, es) := by
    simp [decodeMatch, NUMBER_MAP_get, hes2048, hn]
  have hds128 : ds < 128 := by
    have : (2 : Nat) ^ dr ≤ 128 := by
      calc (2 : Nat) ^ dr ≤ 2 ^ 7 := Nat.pow_le_pow_right (by omega) hdr
        _ = 128 := by norm_num
    omega
  have hsh : (ds <<< er) % 2 ^ 32 = ds * 2 ^ er := by
    rw [Nat.shiftLeft_eq]
    apply Nat.mod_eq_of_lt
    have h32 : (2 : Nat) ^ 32 = 4294967296 := by norm_num
    have : ds * 2 ^ er ≤ 127 * 1024 := Nat.mul_le_mul (by omega) hpow
    omega
  have hor : ds * 2 ^ er ||| es = ds * 2 ^ er + es := mul_pow_or_eq_add ds es hes
  have hlt : ds * 2 ^ er + es < 2 ^ (dr + er) := by
    have h1 : (ds + 1) * 2 ^ er ≤ 2 ^ dr * 2 ^ er := Nat.mul_le_mul_right _ (by omega)
    have h2 : (2 : Nat) ^ dr * 2 ^ er = 2 ^ (dr + er) := (pow_add 2 dr er).symm
    have h3 : (ds + 1) * 2 ^ er = ds * 2 ^ er + 2 ^ er := by ring
    omega
  obtain ⟨out, heq, hb, hlen, hval⟩ := flushLoop_spec (dr + er) ret (ds * 2 ^ er + es) hlt
  rw [hsum] at heq hlen hval
  refine ⟨out, ?_, hb, by omega, ?_⟩
  · rw [decodeLoop]
    simp only [List.isEmpty_nil, hm, hsh, hor, heq]
    rw [decodeLoop]
    simp
  · simpa [Nat.mod_one] using hval

/-- Round trip: decoding an encoded byte sequence recovers it exactly, for any
tail table with at least 8 entries. -/
theorem decode_encode_ok (N : Nat) (hN : 8 ≤ N) (b : List Nat) (hb : ∀ x ∈ b, x < 256) :
    decode N (encode b) = DecodeResult.ok b := by
  rcases h0 : encodeLoop 0 0 b with ⟨S, es, er⟩
  have henc : encode b = S ++ (handle_remaining_bits es er).toList := by
    rw [encode, h0]
  obtain ⟨ret', ds', dr', hmid, her, hes, hdr, hds, hmod8, hret, _hsv, hval, hlen⟩ :=
    encDecCoupling N b 0 0 [] 0 0 hb (by omega) (by norm_num) (by omega) (by norm_num)
      (by omega) (by simp) S es er h0
  have hval' : byteListVal ret' * 2 ^ (dr' + er) + ds' * 2 ^ er + es = byteListVal b := by
    have hz : byteListVal [] = 0 := rfl
    rw [hz] at hval
    simpa using hval
  have hlen' : 8 * ret'.length + dr' + er = 8 * b.length := by simpa using hlen
  rcases Nat.eq_zero_or_pos er with her0 | herpos
  · -- no flush symbol
    subst her0
    have hdr0 : dr' = 0 := by omega
    subst hdr0
    have hds0 : ds' = 0 := by
      have : (2 : Nat) ^ 0 = 1 := pow_zero 2
      omega
    have hes0 : es = 0 := by
      have : (2 : Nat) ^ 0 = 1 := pow_zero 2
      omega
    have hretb : ret' = b := by
      apply byteListVal_inj ret' b hret hb (by omega)
      have := hval'
      rw [hds0, hes0] at this
      simpa using this
    rw [henc]
    have hhrb : handle_remaining_bits es 0 = none := by simp [handle_remaining_bits]
    rw [hhrb]
    simp only [Option.toList, List.append_nil]
    rw [show decode N S = decodeLoop N [] 0 0 0 S from rfl]
    rw [decodeLoop_of_mid N S [] 0 0 0 ret' 0 ds' 0 hmid rfl rfl, hretb]
  · rcases Nat.lt_or_ge er 4 with her3 | her4
    · -- tail-symbol flush
      have hsum : dr' + er = 8 := by omega
      have hhrb : handle_remaining_bits es er = some (Symb.tail es) := by
        unfold handle_remaining_bits
        rw [if_neg (by omega), if_pos (by omega)]
      rw [henc, hhrb]
      simp only [Option.toList]
      rw [show decode N (S ++ [Symb.tail es]) = decodeLoop N [] 0 0 0 (S ++ [Symb.tail es]) from rfl]
      rw [decodeLoop_mid_run N S [Symb.tail es] (by simp) [] 0 0 0 ret' dr' ds' dr' hmid]
      rw [decodeLoop_last_tail N ret' dr' ds' es er dr' hN hdr hds (by omega) (by omega) hsum hes]
      have hbyte : ds' * 2 ^ er + es < 256 := by
        have h1 : (ds' + 1) * 2 ^ er ≤ 2 ^ dr' * 2 ^ er := Nat.mul_le_mul_right _ (by omega)
        have h2 : (2 : Nat) ^ dr' * 2 ^ er = 256 := by rw [← pow_add, hsum]; norm_num
        have h3 : (ds' + 1) * 2 ^ er = ds' * 2 ^ er + 2 ^ er := by ring
        have h4 : (2 : Nat) ^ er ≤ 256 := by
          calc (2 : Nat) ^ er ≤ 2 ^ 8 := Nat.pow_le_pow_right (by omega) (by omega)
            _ = 256 := by norm_num
        omega
      have hretb : ret' ++ [ds' * 2 ^ er + es] = b := by
        apply byteListVal_inj _ b ?_ hb ?_ ?_
        · intro x hx
          rcases List.mem_append.mp hx with h | h
          · exact hret x h
          · simp at h; omega
        · simp only [List.length_append, List.length_singleton]
          omega
        · rw [byteListVal_append]
          have hone : byteListVal [ds' * 2 ^ er + es] = ds' * 2 ^ er + es := by
            simp [byteListVal]
          rw [hone, ← hval']
          have h2 : (2 : Nat) ^ (dr' + er) = 256 := by rw [hsum]; norm_num
          simp only [List.length_singleton, pow_one, h2]
          ring
      rw [hretb]
    · -- main-symbol flush of a 4..10 bit remainder
      have hhrb : handle_remaining_bits es er = some (Symb.main es) := by
        unfold handle_remaining_bits
        rw [if_neg (by omega), if_neg (by omega)]
      rw [henc, hhrb]
      simp only [Option.toList]
      rw [show decode N (S ++ [Symb.main es]) = decodeLoop N [] 0 0 0 (S ++ [Symb.main es]) from rfl]
      rw [decodeLoop_mid_run N S [Symb.main es] (by simp) [] 0 0 0 ret' dr' ds' dr' hmid]
      obtain ⟨out, hrun, hbout, hlenout, hvalout⟩ :=
        decodeLoop_last_main N ret' dr' ds' es er hdr hds her4 her hmod8 hes
      rw [hrun]
      have hretb : ret' ++ out = b := by
        apply byteListVal_inj _ b ?_ hb ?_ ?_
        · intro x hx
          rcases List.mem_append.mp hx with h | h
          · exact hret x h
          · exact hbout x h
        · simp only [List.length_append]
          omega
        · rw [byteListVal_append, hvalout, ← hval']
          have h256 : (256 : Nat) ^ out.length = 2 ^ (dr' + er) := by
            have : (256 : Nat) ^ out.length = 2 ^ (8 * out.length) := by
              rw [pow_mul]; norm_num
            rw [this, hlenout]
          rw [h256]
          ring
      rw [hretb]

/-! ## Streaming decoder refinement -/

theorem streamLoop_ok_of_decodeLoop_ok (N : Nat) : ∀ (syms : List Symb) (ret : List Nat)
    (r s ρ : Nat) (l : List Nat),
    decodeLoop N ret r s ρ syms = DecodeResult.ok l →
    decode_streamLoop N ret r s ρ syms = StreamResult.ok l := by
  intro syms
  induction syms with
  | nil =>
      intro ret r s ρ l h
      rw [decodeLoop] at h
      rw [decode_streamLoop]
      by_cases hr0 : 0 < r
      · simp only [if_pos hr0] at h ⊢
        by_cases hb : s >>> (8 - r) < 256
        · simp only [if_pos hb] at h ⊢
          simp only [DecodeResult.ok.injEq] at h
          rw [h]
        · simp only [if_neg hb] at h
          simp at h
      · simp only [if_neg hr0] at h ⊢
        simp only [DecodeResult.ok.injEq] at h
        rw [h]
  | cons c rest ih =>
      intro ret r s ρ l h
      rw [decodeLoop] at h
      rw [decode_streamLoop]
      split at h
      · simp at h
      · rename_i n v hm
        split at h
        · simp at h
        · rename_i ret0 s0 r0 hf
          exact ih ret0 r0 s0 ((ρ + 11) % 8) l h

/-! ## The tail-symbol step of the decoder -/

/-- A tail symbol whose index is not below `2 ^ (8 - remaining)` is rejected at
any position (if the index is not below the table size either, the lookup
itself misses; both paths return the `InvalidSymbol` failure). -/
theorem decodeLoop_tail_reject (N : Nat) (ret : List Nat) (remaining stage residue i : Nat)
    (rest : List Symb) (hi : 2 ^ (8 - remaining) ≤ i) :
    decodeLoop N ret remaining stage residue (Symb.tail i :: rest)
      = DecodeResult.invalidSymbol := by
  have hm : decodeMatch N remaining ((residue + 11) % 8) (Symb.tail i) rest.isEmpty = none := by
    simp only [decodeMatch, NUMBER_MAP_get, TAIL_NUMBER_MAP_get, Nat.one_shiftLeft]
    by_cases hN' : i < N
    · simp only [if_pos hN']
      rw [if_neg (by omega)]
    · simp only [if_neg hN']
  rw [decodeLoop]
  simp only [hm]

/-- A tail symbol whose index fits in the bits still needed is accepted at any
position: it contributes exactly `8 - remaining` bits, completing one byte, and
decoding continues. -/
theorem decodeLoop_tail_step (N : Nat) (ret : List Nat) (remaining stage residue i : Nat)
    (rest : List Symb) (hrem : remaining < 8) (hstage : stage < 2 ^ remaining)
    (hiN : i < N) (hi : i < 2 ^ (8 - remaining)) :
    decodeLoop N ret remaining stage residue (Symb.tail i :: rest)
      = decodeLoop N (ret ++ [stage * 2 ^ (8 - remaining) + i]) 0 0 ((residue + 11) % 8) rest := by
  have hm : decodeMatch N remaining ((residue + 11) % 8) (Symb.tail i) rest.isEmpty
      = some (8 - remaining, i) := by
    simp only [decodeMatch, NUMBER_MAP_get, TAIL_NUMBER_MAP_get, if_pos hiN,
      Nat.one_shiftLeft, if_pos hi]
  have hstage128 : stage < 128 := by
    have : (2 : Nat) ^ remaining ≤ 128 := by
      calc (2 : Nat) ^ remaining ≤ 2 ^ 7 := Nat.pow_le_pow_right (by omega) (by omega)
        _ = 128 := by norm_num
    omega
  have hbyte : stage * 2 ^ (8 - remaining) + i < 256 := by
    have h1 : (stage + 1) * 2 ^ (8 - remaining) ≤ 2 ^ remaining * 2 ^ (8 - remaining) :=
      Nat.mul_le_mul_right _ (by omega)
    have h2 : (2 : Nat) ^ remaining * 2 ^ (8 - remaining) = 256 := by
      rw [← pow_add]
      have : remaining + (8 - remaining) = 8 := by omega
      rw [this]; norm_num
    have h3 : (stage + 1) * 2 ^ (8 - remaining) = stage * 2 ^ (8 - remaining) + 2 ^ (8 - remaining) := by
      ring
    omega
  have hsh : (stage <<< (8 - remaining)) % 2 ^ 32 = stage * 2 ^ (8 - remaining) := by
    rw [Nat.shiftLeft_eq]
    apply Nat.mod_eq_of_lt
    have h32 : (2 : Nat) ^ 32 = 4294967296 := by norm_num
    have : (2 : Nat) ^ (8 - remaining) ≤ 256 := by
      calc (2 : Nat) ^ (8 - remaining) ≤ 2 ^ 8 := Nat.pow_le_pow_right (by omega) (by omega)
        _ = 256 := by norm_num
    have : stage * 2 ^ (8 - remaining) ≤ 127 * 256 := Nat.mul_le_mul (by omega) this
    omega
  have hor : stage * 2 ^ (8 - remaining) ||| i = stage * 2 ^ (8 - remaining) + i :=
    mul_pow_or_eq_add stage i hi
  have hsum : remaining + (8 - remaining) = 8 := by omega
  have hfl : flushLoop ret (stage * 2 ^ (8 - remaining) + i) (remaining + (8 - remaining))
      = some (ret ++ [stage * 2 ^ (8 - remaining) + i], 0, 0) := by
    rw [hsum]
    rw [show (8 : Nat) = 0 + 8 from rfl, flushLoop_step]
    rw [Nat.shiftRight_zero, if_pos hbyte, and_shiftLeft_sub_one, pow_zero, Nat.mod_one]
    exact flushLoop_lt _ _ _ (by omega)
  rw [decodeLoop]
  simp only [hm, hsh, hor, hfl]

theorem encode_ne_lone_tail (b : List Nat) (i : Nat) : encode b ≠ [Symb.tail i] := by
  match b with
  | [] => simp [encode, encodeLoop, handle_remaining_bits]
  | [b0] =>
      have e1 : bytes_to_emojis 0 0 b0 = (b0, 8, none) := by
        unfold bytes_to_emojis
        rw [if_neg (by norm_num)]
        simp
      simp [encode, encodeLoop, e1, handle_remaining_bits]
  | b0 :: b1 :: bs =>
      have e1 : bytes_to_emojis 0 0 b0 = (b0, 8, none) := by
        unfold bytes_to_emojis
        rw [if_neg (by norm_num)]
        simp
      have e2 : bytes_to_emojis b0 8 b1 = (b1 &&& ((1 <<< 5) - 1), 5,
          some (Symb.main (((b0 <<< 3) % 2 ^ 16) ||| (b1 >>> 5)))) := by
        unfold bytes_to_emojis
        rw [if_pos (by norm_num)]
      rcases h3 : encodeLoop (b1 &&& ((1 <<< 5) - 1)) 5 bs with ⟨S', es', er'⟩
      simp [encode, encodeLoop, e1, e2, h3]

/-! ## The claims -/

/-- C1: for every byte sequence `b` (the empty sequence included) and any tail
table with at least 8 entries, `decode (encode b)` returns `Some b`. -/
theorem claim_roundtrip (N : Nat) (b : List Nat) (hN : 8 ≤ N) (hb : ∀ x ∈ b, x < 256) :
    decode N (encode b) = DecodeResult.ok b :=
  decode_encode_ok N hN b hb

theorem claim_roundtrip_witness :
    8 ≤ 9 ∧ (∀ x ∈ [0x31, 0x32, 0x33], x < 256)
      ∧ decode 9 (encode [0x31, 0x32, 0x33]) = DecodeResult.ok [0x31, 0x32, 0x33] :=
  ⟨by decide, by decide, claim_roundtrip 9 [0x31, 0x32, 0x33] (by decide) (by decide)⟩

/-- C2 (refuting the claim that decode never aborts): on the one-symbol input
consisting of the main-table symbol of index 256, `decode` reaches the
`u8::try_from(..).expect("Decoding byte was higher than 255")` assertion with
the value 256 and panics: the lone main symbol is assigned `11 - 3 = 8`
meaningful bits, but its index does not fit in 8 bits. -/
theorem claim_decode_panics_on_lone_main : decode 9 [Symb.main 256] = DecodeResult.panicked := by
  decide

/-- C3: feeding `encode b` through the streaming decoder writes to the sink
exactly the byte sequence that `decode (encode b)` returns, namely `b`. -/
theorem claim_streaming_equivalence (N : Nat) (b : List Nat) (hN : 8 ≤ N)
    (hb : ∀ x ∈ b, x < 256) :
    decode_stream N (encode b) = StreamResult.ok b
      ∧ decode N (encode b) = DecodeResult.ok b :=
  have h := decode_encode_ok N hN b hb
  ⟨streamLoop_ok_of_decodeLoop_ok N (encode b) [] 0 0 0 b h, h⟩

theorem claim_streaming_equivalence_witness :
    decode_stream 9 (encode [0x31, 0x32, 0x33]) = StreamResult.ok [0x31, 0x32, 0x33]
      ∧ decode 9 (encode [0x31, 0x32, 0x33]) = DecodeResult.ok [0x31, 0x32, 0x33] :=
  claim_streaming_equivalence 9 [0x31, 0x32, 0x33] (by decide) (by decide)

/-- C4 (refuting the claim that a read failure is propagated): the
`while let Ok(n) = reader.read(..)` loop of `encode_stream` treats a read error
as end of input: it flushes the accumulator and returns `Ok`, for a failing
first read, for a failure after one successful chunk (the output is then the
encoding of the truncated input), and in fact for every read sequence. -/
theorem claim_encode_stream_swallows_read_error :
    encode_stream [none] = Except.ok []
    ∧ encode_stream [some [0x31], none, some [0x33]] = Except.ok (encode [0x31])
    ∧ ∀ reads, (encode_stream reads).isOk = true := by
  refine ⟨rfl, rfl, ?_⟩
  intro reads
  rw [encode_stream]
  split
  rfl

/-- C5: at a reachable decoder state, a final tail symbol of index exactly
`2 ^ need` (where `need = 8 - remaining`) is rejected as `InvalidSymbol`, and
any tail-table symbol of index below `2 ^ need` is accepted, contributing
exactly `need` bits and completing the pending byte. -/
theorem claim_tail_validity_boundary (N : Nat) (ret : List Nat)
    (remaining stage residue : Nat) (hrem : remaining < 8) (hstage : stage < 2 ^ remaining) :
    decodeLoop N ret remaining stage residue [Symb.tail (2 ^ (8 - remaining))]
        = DecodeResult.invalidSymbol
    ∧ ∀ i, i < 2 ^ (8 - remaining) → i < N →
        decodeLoop N ret remaining stage residue [Symb.tail i]
          = DecodeResult.ok (ret ++ [stage * 2 ^ (8 - remaining) + i]) := by
  constructor
  · exact decodeLoop_tail_reject N ret remaining stage residue _ [] (Nat.le_refl _)
  · intro i hi hiN
    rw [decodeLoop_tail_step N ret remaining stage residue i [] hrem hstage hiN hi]
    rw [decodeLoop]
    simp

theorem claim_tail_validity_boundary_witness :
    decodeLoop 9 [] 0 0 0 [Symb.tail 256] = DecodeResult.invalidSymbol
    ∧ decodeLoop 9 [] 0 0 0 [Symb.tail 7] = DecodeResult.ok [7] := by
  have h := claim_tail_validity_boundary 9 [] 0 0 0 (by decide) (by decide)
  refine ⟨?_, ?_⟩
  · have := h.1
    simpa using this
  · have := h.2 7 (by decide) (by decide)
    simpa using this

/-- C6 counterexample: the input `[tail 0, main 0]` places a tail-table symbol
at a non-final position, yet `decode` accepts it and returns bytes. -/
theorem claim_tail_nonfinal_counterexample :
    decode 9 [Symb.tail 0, Symb.main 0] = DecodeResult.ok [0, 0]
    ∧ decode 9 [Symb.tail 0, Symb.main 0] ≠ DecodeResult.invalidSymbol := by
  decide

/-- C6 (amended): a tail symbol is rejected, at any position, exactly when its
index does not fit the bits still needed: if the index is at least
`2 ^ (8 - remaining)` decoding fails with `InvalidSymbol`; a tail-table symbol
with a smaller index is accepted even at a non-final position — it contributes
`8 - remaining` bits, completes the pending byte, and decoding continues. -/
theorem claim_tail_nonfinal_amended (N : Nat) (ret : List Nat)
    (remaining stage residue i : Nat) (rest : List Symb) :
    (2 ^ (8 - remaining) ≤ i →
      decodeLoop N ret remaining stage residue (Symb.tail i :: rest)
        = DecodeResult.invalidSymbol)
    ∧ (i < 2 ^ (8 - remaining) → i < N → remaining < 8 → stage < 2 ^ remaining →
      decodeLoop N ret remaining stage residue (Symb.tail i :: rest)
        = decodeLoop N (ret ++ [stage * 2 ^ (8 - remaining) + i]) 0 0
            ((residue + 11) % 8) rest) :=
  ⟨fun hi => decodeLoop_tail_reject N ret remaining stage residue i rest hi,
   fun hi hiN hrem hstage =>
     decodeLoop_tail_step N ret remaining stage residue i rest hrem hstage hiN hi⟩

theorem claim_tail_nonfinal_amended_witness :
    decodeLoop 9 [] 0 0 0 [Symb.tail 256, Symb.main 0] = DecodeResult.invalidSymbol
    ∧ decodeLoop 9 [] 0 0 0 [Symb.tail 3, Symb.main 0]
        = decodeLoop 9 [3] 0 0 3 [Symb.main 0] := by
  have h := claim_tail_nonfinal_amended 9 [] 0 0 0 256 [Symb.main 0]
  have h' := claim_tail_nonfinal_amended 9 [] 0 0 0 3 [Symb.main 0]
  refine ⟨?_, ?_⟩
  · have := h.1 (by decide)
    simpa using this
  · have := h'.2 (by decide) (by decide) (by decide) (by decide)
    simpa using this

/-- C7: at end of encode input, pending bits 0 append nothing, pending bits
1..3 append the tail-table symbol for the accumulator value, pending bits 4..10
append the main-table symbol for the accumulator value (in range, since the
value is below 2048); no other pending count is reachable. -/
theorem claim_encode_flush (b : List Nat) (hb : ∀ x ∈ b, x < 256)
    (S : List Symb) (stage remaining : Nat)
    (h : encodeLoop 0 0 b = (S, stage, remaining)) :
    encode b = S ++ (handle_remaining_bits stage remaining).toList
    ∧ (remaining = 0 → handle_remaining_bits stage remaining = none)
    ∧ (1 ≤ remaining → remaining ≤ 3 →
        handle_remaining_bits stage remaining = some (Symb.tail stage))
    ∧ (4 ≤ remaining → handle_remaining_bits stage remaining = some (Symb.main stage)
        ∧ stage < 2048)
    ∧ remaining ≤ 10 := by
  obtain ⟨_, _, _, _, her, hes, _, _, _, _, _, _, _⟩ :=
    encDecCoupling 9 b 0 0 [] 0 0 hb (by omega) (by norm_num) (by omega) (by norm_num)
      (by omega) (by simp) S stage remaining h
  refine ⟨by rw [encode, h], ?_, ?_, ?_, her⟩
  · intro h0
    simp [handle_remaining_bits, h0]
  · intro h1 h3
    unfold handle_remaining_bits
    rw [if_neg (by omega), if_pos h3]
  · intro h4
    have hs2048 : stage < 2048 := by
      have : (2 : Nat) ^ remaining ≤ 1024 := by
        calc (2 : Nat) ^ remaining ≤ 2 ^ 10 := Nat.pow_le_pow_right (by omega) her
          _ = 1024 := by norm_num
      omega
    refine ⟨?_, hs2048⟩
    unfold handle_remaining_bits
    rw [if_neg (by omega), if_neg (by omega)]

theorem claim_encode_flush_witness :
    encode [0x31, 0x32, 0x33]
        = [Symb.main 393, Symb.main 1164] ++ (handle_remaining_bits 3 2).toList
    ∧ handle_remaining_bits 3 2 = some (Symb.tail 3) := by
  have h := claim_encode_flush [0x31, 0x32, 0x33] (by decide)
    [Symb.main 393, Symb.main 1164] 3 2 (by decide)
  exact ⟨h.1, h.2.2.1 (by decide) (by decide)⟩

/-- C8: encoding never fails — every symbol `encode` emits carries an index
present in its table under the §3 invariants: main-table indices are below
2048 and tail-table indices below 8, so the panicking lookup-miss branch is
never taken. -/
theorem claim_encode_lookups (b : List Nat) (hb : ∀ x ∈ b, x < 256) :
    ∀ c ∈ encode b, symLookupOk c := by
  rcases h0 : encodeLoop 0 0 b with ⟨S, es, er⟩
  obtain ⟨_, _, _, _, her, hes, _, _, _, _, hsv, _, _⟩ :=
    encDecCoupling 9 b 0 0 [] 0 0 hb (by omega) (by norm_num) (by omega) (by norm_num)
      (by omega) (by simp) S es er h0
  intro c hc
  have henc : encode b = S ++ (handle_remaining_bits es er).toList := by rw [encode, h0]
  rw [henc] at hc
  rcases List.mem_append.mp hc with h | h
  · obtain ⟨w, rfl, hw⟩ := hsv c h
    simpa [symLookupOk] using hw
  · unfold handle_remaining_bits at h
    by_cases h0r : er = 0
    · simp [h0r] at h
    · by_cases h3r : er ≤ 3
      · rw [if_neg h0r, if_pos h3r] at h
        simp at h
        subst h
        have hp : (2 : Nat) ^ er ≤ 8 := by
          calc (2 : Nat) ^ er ≤ 2 ^ 3 := Nat.pow_le_pow_right (by omega) h3r
            _ = 8 := by norm_num
        simp only [symLookupOk]
        omega
      · rw [if_neg h0r, if_neg h3r] at h
        simp at h
        subst h
        have hp : (2 : Nat) ^ er ≤ 1024 := by
          calc (2 : Nat) ^ er ≤ 2 ^ 10 := Nat.pow_le_pow_right (by omega) her
            _ = 1024 := by norm_num
        simp only [symLookupOk]
        omega

theorem claim_encode_lookups_witness :
    (∀ x ∈ [0x31, 0x32, 0x33], x < 256)
    ∧ symLookupOk (Symb.main 393) ∧ symLookupOk (Symb.main 1164) ∧ symLookupOk (Symb.tail 3) :=
  ⟨by decide,
   claim_encode_lookups [0x31, 0x32, 0x33] (by decide) (Symb.main 393) (by decide),
   claim_encode_lookups [0x31, 0x32, 0x33] (by decide) (Symb.main 1164) (by decide),
   claim_encode_lookups [0x31, 0x32, 0x33] (by decide) (Symb.tail 3) (by decide)⟩

/-- C9: the empty byte sequence encodes to the empty symbol string, and the
empty symbol string decodes to the empty byte sequence, not a failure, for any
tail table. -/
theorem claim_empty_input : encode [] = [] ∧ ∀ N : Nat, decode N [] = DecodeResult.ok [] :=
  ⟨rfl, fun _ => rfl⟩

/-- C10: every tail-table symbol of index below 256 decodes, as a lone one-symbol
input, to the single byte equal to its index — although no output of `encode`
is ever a lone tail symbol. -/
theorem claim_decode_lone_tail (N i : Nat) (hiN : i < N) (hi256 : i < 256) :
    decode N [Symb.tail i] = DecodeResult.ok [i]
    ∧ ∀ b : List Nat, encode b ≠ [Symb.tail i] := by
  constructor
  · rw [show decode N [Symb.tail i] = decodeLoop N [] 0 0 0 [Symb.tail i] from rfl]
    rw [decodeLoop_tail_step N [] 0 0 0 i [] (by omega) (by norm_num) hiN
      (by simpa using hi256)]
    rw [decodeLoop]
    simp
  · intro b
    exact encode_ne_lone_tail b i

theorem claim_decode_lone_tail_witness :
    decode 9 [Symb.tail 5] = DecodeResult.ok [5] ∧ encode [0x31] ≠ [Symb.tail 5] :=
  ⟨(claim_decode_lone_tail 9 5 (by decide) (by decide)).1,
   (claim_decode_lone_tail 9 5 (by decide) (by decide)).2 [0x31]⟩
